import Mathlib

/-!
Verification of `qc_utils.py` (quantum-circuit notebook utilities).

The development shallowly embeds the repository's own logic:

* `_get_ideal_counts` (lines 86-123): theoretical probabilities are taken as
  an association list `ProbDist` (the insertion-ordered items of the Python
  dict returned by `Statevector.probabilities_dict`), probabilities as exact
  rationals, Python's `round` as round-half-to-even, Python's stable
  `sorted(..., reverse=True)` as a stable insertion sort, and the final dict
  comprehension as a `filter`.
* the pipeline skeletons of `run_and_visualize` (lines 133-292),
  `compare_circuits` (lines 295-490) and `quick_run` (lines 493-563), with
  the external SDK primitives (transpile, sampler, state-vector computation)
  as function parameters returning `Except`, mirroring how the Python code
  lets SDK exceptions flow through it unhandled.
* a small explicit heap (`Store`) for the mutation claims, since
  `QuantumCircuit.measure_all` mutates its receiver in place in Python while
  `copy` and `transpile` allocate fresh objects.
* the display helpers `_display_circuit` (lines 19-42) and
  `_display_circuits_grid` (lines 45-67) in an exception monad, with the
  fallible drawing primitives as parameters.

Display-only side effects (prints, histograms) that touch no circuit and are
produced by total formatting code are omitted from the value-level pipeline
embeddings; the display helpers are embedded separately for the
error-handling claims.
-/

/-- Measured bitstring outcomes, the keys of a counts dict ('00', '01', ...). -/
abbrev QState := String

/-- Items of the Python dict returned by `Statevector.probabilities_dict`,
in insertion order, with exact rational probabilities. -/
abbrev ProbDist := List (QState × ℚ)

/-- Items of a counts dict, in insertion order.  Counts are integers
(`remaining_shots` in the source can in principle go negative). -/
abbrev Counts := List (QState × ℤ)

/-- Python's built-in `round` on an exact value: round half to even
(banker's rounding), as used at line 118 of `qc_utils.py`. -/
def pythonRound (q : ℚ) : ℤ :=
  let f : ℤ := ⌊q⌋
  let r : ℚ := q - f
  if r < 1/2 then f
  else if 1/2 < r then f + 1
  else if f % 2 = 0 then f else f + 1

/-- Comparison used by `sorted(probabilities.items(), key=lambda x: x[1],
reverse=True)` at line 111: `a` may precede `b` when `a`'s probability is at
least `b`'s. -/
def probGe (a b : QState × ℚ) : Prop := b.2 ≤ a.2

instance : DecidableRel probGe := fun a b => inferInstanceAs (Decidable (b.2 ≤ a.2))

instance : IsTotal (QState × ℚ) probGe := ⟨fun a b => le_total b.2 a.2⟩

instance : IsTrans (QState × ℚ) probGe := ⟨fun _ _ _ h1 h2 => le_trans h2 h1⟩

/-- Line 111: sort the probability items by descending probability.  Python's
`sorted` is stable; `List.insertionSort` is a stable sort, so ties keep their
dict insertion order exactly as CPython's `sorted(..., reverse=True)` does. -/
def sortedProbs (d : ProbDist) : List (QState × ℚ) :=
  List.insertionSort probGe d

/-- Lines 113-120: the loop body.  Every state except the last gets
`round(prob * shots)` and is subtracted from `remaining_shots`; the last
state receives all remaining shots. -/
def assignCounts (shots : ℤ) : List (QState × ℚ) → ℤ → Counts
  | [], _ => []
  | [(st, _)], remaining => [(st, remaining)]
  | (st, p) :: q :: rest, remaining =>
      (st, pythonRound (p * shots)) ::
        assignCounts shots (q :: rest) (remaining - pythonRound (p * shots))

/-- Lines 106-123 of `qc_utils.py` (`_get_ideal_counts` after the state
vector has been obtained): convert exact probabilities into integer shot
counts and keep only the strictly positive buckets (line 123 filters with
`count > 0`). -/
def getIdealCounts (d : ProbDist) (shots : ℤ) : Counts :=
  (assignCounts shots (sortedProbs d) shots).filter (fun p => 0 < p.2)

/-- Total number of shots of a counts dict (sum of its values). -/
def sumCounts (c : Counts) : ℤ := (c.map (fun p => p.2)).sum

/-- The count the loop hands to the last state at line 116: the requested
shots minus the rounded counts of every earlier (higher-probability) state. -/
def lastRemaining (d : ProbDist) (shots : ℤ) : ℤ :=
  shots - (((sortedProbs d).dropLast).map (fun x => pythonRound (x.2 * shots))).sum

/-- A distribution realizable by a 3-qubit state vector (seven amplitudes of
squared norm 13/100 and one of 9/100) on which the rounded non-last buckets
overshoot the shot budget. -/
def cexDist : ProbDist :=
  [("000", 13/100), ("001", 13/100), ("010", 13/100), ("011", 13/100),
   ("100", 13/100), ("101", 13/100), ("110", 13/100), ("111", 9/100)]

/-- Ordering of enumerated (position, item) pairs that characterizes the
result of a stable descending sort: strictly larger probability first, and
equal probabilities ordered by original dict position. -/
def probDescAt (a b : ℕ × (QState × ℚ)) : Prop :=
  b.2.2 < a.2.2 ∨ (a.2.2 = b.2.2 ∧ a.1 < b.1)

/-- The list `l` is a stable descending sort of the dict items `d`: some
enumeration of `d`'s items can be rearranged into `l` so that probabilities
descend and ties keep their original order.  This is the (implementation
independent) specification of line 111's `sorted(..., reverse=True)`. -/
def IsStableDescSort (d : ProbDist) (l : List (QState × ℚ)) : Prop :=
  ∃ el : List (ℕ × (QState × ℚ)),
    el.map Prod.snd = l ∧ el.Perm d.enum ∧ el.Pairwise probDescAt

/-- Relational description of one run of `_get_ideal_counts` on the items of
`probabilities_dict`: the items are stably sorted by descending probability,
the loop of lines 113-120 is run, and nonpositive buckets are dropped. -/
def IdealCountsOutcome (d : ProbDist) (shots : ℤ) (out : Counts) : Prop :=
  ∃ l, IsStableDescSort d l ∧
    out = (assignCounts shots l shots).filter (fun p => 0 < p.2)

/-- Instructions of a circuit, as far as this code inspects them: line 99
only asks whether `instruction.operation.name != 'measure'`. -/
inductive QOp
  | measure
  | gate (name : String)
deriving DecidableEq

/-- Test used at line 99 of the source (`operation.name != 'measure'`,
negated). -/
def QOp.isMeasure : QOp → Bool
  | .measure => true
  | .gate _ => false

/-- The slice of a Qiskit `QuantumCircuit` this code observes: its qubit
count, its classical registers (`cregs`, tested for emptiness at lines 171,
355 and 520) and its instruction list (`data`). -/
structure Circuit where
  numQubits : ℕ
  cregs : List String
  ops : List QOp
deriving DecidableEq

instance : Inhabited Circuit := ⟨⟨0, [], []⟩⟩

/-- Modelled from the SDK: `QuantumCircuit.measure_all` adds one classical
register named `meas` and one measure instruction per qubit to the circuit. -/
def Circuit.measureAll (c : Circuit) : Circuit :=
  { c with cregs := c.cregs ++ ["meas"],
           ops := c.ops ++ List.replicate c.numQubits QOp.measure }

/-- Whether any instruction of the circuit is a measurement. -/
def Circuit.hasMeasure (c : Circuit) : Bool := c.ops.any QOp.isMeasure

/-- The slice of a Qiskit backend this code observes: its `name` and its
optional `simulator` attribute.  `none` models a backend without the
attribute (`hasattr` is false); `some t` models an attribute whose Python
truthiness is `t`. -/
structure Backend where
  name : String
  simulator : Option Bool
deriving DecidableEq

/-- Modelled from the SDK: `AerSimulator()` is a `BackendV2` that exposes no
`simulator` attribute, so `hasattr(backend, 'simulator')` is false on it. -/
def aerSimulator : Backend := { name := "aer_simulator", simulator := none }

/-- Lines 180, 350 and 527: `hasattr(backend, 'simulator') and not
backend.simulator`. -/
def isHardware (b : Backend) : Bool :=
  match b.simulator with
  | none => false
  | some t => !t

/-- Lines 175-176, 342-343 and 523-524: `if backend is None: backend =
AerSimulator()`. -/
def resolveBackend (backendArg : Option Backend) : Backend :=
  backendArg.getD aerSimulator

/-- Lines 167-172 (and 352-357, 519-521): work on a copy of the caller's
circuit and call `measure_all` on it when it has no classical registers. -/
def withMeasure (qc : Circuit) : Circuit :=
  if qc.cregs = [] then qc.measureAll else qc

/-- Lines 93-100 of `_get_ideal_counts`: when the circuit has classical
registers, rebuild it on the same qubits keeping only non-measure
instructions; otherwise use a plain copy. -/
def stripMeasure (c : Circuit) : Circuit :=
  if c.cregs = [] then c
  else { numQubits := c.numQubits, cregs := [], ops := c.ops.filter (fun o => !o.isMeasure) }

/-- Opaque payload of an SDK exception. -/
abbrev SdkErr := String

/-- Lines 102-123: compute the state-vector probabilities of the
measurement-stripped circuit (an SDK call that may raise) and convert them
to ideal counts. -/
def getIdealCountsE (sv : Circuit → Except SdkErr ProbDist)
    (c : Circuit) (shots : ℤ) : Except SdkErr Counts :=
  match sv (stripMeasure c) with
  | .error e => .error e
  | .ok d => .ok (getIdealCounts d shots)

/-- Return type of `run_and_visualize` and `quick_run`: either a single
counts dict or, in the hardware-with-comparison case, an (ideal, hardware)
pair. -/
abbrev RAVResult := Counts ⊕ (Counts × Counts)

/-- Lines 188-190: the circuit actually handed to the sampler by
`run_and_visualize`: the measured copy, transpiled when the backend is
hardware and `optimize_circuit` is set. -/
def ravHwCircuit (tf : Circuit → Except SdkErr Circuit)
    (backendArg : Option Backend) (optimizeCircuit : Bool)
    (qc : Circuit) : Except SdkErr Circuit :=
  if isHardware (resolveBackend backendArg) && optimizeCircuit then
    tf (withMeasure qc)
  else .ok (withMeasure qc)

/-- Lines 133-292, `run_and_visualize`, restricted to the circuit and result
dataflow.  `tf`, `sampler` and `sv` are the SDK's transpile, sampler
execution and state-vector primitives; each may raise.  Display-only
branches are omitted (they are total, see the display embedding below). -/
def runAndVisualize (tf : Circuit → Except SdkErr Circuit)
    (sampler : Circuit → Except SdkErr Counts)
    (sv : Circuit → Except SdkErr ProbDist)
    (backendArg : Option Backend) (shots : ℤ)
    (compareWithIdeal optimizeCircuit : Bool)
    (qc : Circuit) : Except SdkErr RAVResult :=
  let circuit := withMeasure qc
  let backend := resolveBackend backendArg
  match ravHwCircuit tf backendArg optimizeCircuit qc with
  | .error e => .error e
  | .ok hwCircuit =>
    if isHardware backend && compareWithIdeal then
      match getIdealCountsE sv circuit shots with
      | .error e => .error e
      | .ok ideal =>
        match sampler hwCircuit with
        | .error e => .error e
        | .ok hw => .ok (.inr (ideal, hw))
    else
      match sampler hwCircuit with
      | .error e => .error e
      | .ok counts => .ok (.inl counts)

/-- Lines 367-368: transpile every measured circuit for the hardware
backend, propagating the first SDK exception. -/
def transpileAll (tf : Circuit → Except SdkErr Circuit) :
    List Circuit → Except SdkErr (List Circuit)
  | [] => .ok []
  | c :: cs =>
    match tf c with
    | .error e => .error e
    | .ok c2 =>
      match transpileAll tf cs with
      | .error e => .error e
      | .ok cs2 => .ok (c2 :: cs2)

/-- Lines 126-128, `_get_ideal_counts_batch`: ideal counts of every circuit,
propagating the first SDK exception of the state-vector primitive. -/
def idealAll (sv : Circuit → Except SdkErr ProbDist) (shots : ℤ) :
    List Circuit → Except SdkErr (List Counts)
  | [] => .ok []
  | c :: cs =>
    match getIdealCountsE sv c shots with
    | .error e => .error e
    | .ok k =>
      match idealAll sv shots cs with
      | .error e => .error e
      | .ok ks => .ok (k :: ks)

/-- Return type of `compare_circuits`: either one list of counts dicts or,
in the hardware-with-comparison case, a pair of lists. -/
abbrev CCResult := (List Counts) ⊕ (List Counts × List Counts)

/-- Lines 364-368: the circuits actually handed to the batch sampler by
`compare_circuits`: the measured copies, transpiled whenever the backend is
hardware (`compare_circuits` has no `optimize_circuit` flag). -/
def cmpHwCircuits (tf : Circuit → Except SdkErr Circuit)
    (backendArg : Option Backend) (qcs : List Circuit) :
    Except SdkErr (List Circuit) :=
  if isHardware (resolveBackend backendArg) then
    transpileAll tf (qcs.map withMeasure)
  else .ok (qcs.map withMeasure)

/-- Lines 295-490, `compare_circuits`, restricted to the circuit and result
dataflow.  The batch sampler models `_run_circuits_batch` (lines 78-83). -/
def compareCircuits (tf : Circuit → Except SdkErr Circuit)
    (samplerBatch : List Circuit → Except SdkErr (List Counts))
    (sv : Circuit → Except SdkErr ProbDist)
    (backendArg : Option Backend) (shots : ℤ)
    (compareWithIdeal : Bool)
    (qcs : List Circuit) : Except SdkErr CCResult :=
  let backend := resolveBackend backendArg
  let cwm := qcs.map withMeasure
  match cmpHwCircuits tf backendArg qcs with
  | .error e => .error e
  | .ok hwCircuits =>
    if isHardware backend && compareWithIdeal then
      match idealAll sv shots cwm with
      | .error e => .error e
      | .ok ideals =>
        match samplerBatch hwCircuits with
        | .error e => .error e
        | .ok hws => .ok (.inr (ideals, hws))
    else
      match samplerBatch hwCircuits with
      | .error e => .error e
      | .ok all => .ok (.inl all)

/-- Lines 519-530: the circuit actually handed to the sampler by
`quick_run`: the measured copy, transpiled whenever the backend is
hardware. -/
def qrExecCircuit (tf : Circuit → Except SdkErr Circuit)
    (backendArg : Option Backend) (qc : Circuit) : Except SdkErr Circuit :=
  if isHardware (resolveBackend backendArg) then tf (withMeasure qc)
  else .ok (withMeasure qc)

/-- Lines 493-563, `quick_run`, restricted to the circuit and result
dataflow.  In the hardware-with-comparison branch the ideal counts are
computed from a fresh measured copy of the caller's circuit (lines
534-537). -/
def quickRun (tf : Circuit → Except SdkErr Circuit)
    (sampler : Circuit → Except SdkErr Counts)
    (sv : Circuit → Except SdkErr ProbDist)
    (backendArg : Option Backend) (shots : ℤ)
    (compareWithIdeal : Bool)
    (qc : Circuit) : Except SdkErr RAVResult :=
  let backend := resolveBackend backendArg
  match qrExecCircuit tf backendArg qc with
  | .error e => .error e
  | .ok execCircuit =>
    if isHardware backend && compareWithIdeal then
      let original := withMeasure qc
      match getIdealCountsE sv original shots with
      | .error e => .error e
      | .ok ideal =>
        match sampler execCircuit with
        | .error e => .error e
        | .ok hw => .ok (.inr (ideal, hw))
    else
      match sampler execCircuit with
      | .error e => .error e
      | .ok counts => .ok (.inl counts)

/-- A circuit that owns a classical register but contains no measure
instruction: `QuantumCircuit(1, 1)` with a single `h` gate. -/
def cregNoMeasure : Circuit := { numQubits := 1, cregs := ["c0"], ops := [QOp.gate "h"] }

/-- A Python heap of circuit objects; object references are list indices. -/
abbrev Store := List Circuit

/-- `qc.copy()`: allocate a fresh circuit object equal to the referenced
one and return its reference. -/
def copyRef (s : Store) (r : ℕ) : Store × ℕ :=
  (s ++ [s.getD r default], s.length)

/-- `qc.measure_all()`: mutate the referenced circuit object in place. -/
def measureAllRef (s : Store) (r : ℕ) : Store :=
  s.set r (Circuit.measureAll (s.getD r default))

/-- Allocate a fresh circuit object (the result of `transpile`, which
returns a new circuit and leaves its argument untouched). -/
def allocRef (s : Store) (c : Circuit) : Store × ℕ :=
  (s ++ [c], s.length)

/-- Lines 167-172 on the heap: `circuit = qc.copy()`, then
`circuit.measure_all()` when the copy has no classical registers. -/
def prepHeap (s : Store) (r : ℕ) : Store × ℕ :=
  let (s1, rc) := copyRef s r
  if (s1.getD rc default).cregs = [] then (measureAllRef s1 rc, rc) else (s1, rc)

/-- Lines 167-190 of `run_and_visualize` on the heap: copy, conditionally
add measurement, and allocate a transpiled circuit when the backend is
hardware and optimization is on. -/
def ravHeap (tf : Circuit → Circuit) (isHw optimizeCircuit : Bool)
    (s : Store) (r : ℕ) : Store × ℕ :=
  let (s1, rc) := prepHeap s r
  if isHw && optimizeCircuit then allocRef s1 (tf (s1.getD rc default))
  else (s1, rc)

/-- Lines 352-357 of `compare_circuits` on the heap: copy and conditionally
add measurement to each circuit in turn. -/
def cmpPrepHeap : Store → List ℕ → Store × List ℕ
  | s, [] => (s, [])
  | s, r :: rs =>
    let (s1, rc) := prepHeap s r
    let (s2, rcs) := cmpPrepHeap s1 rs
    (s2, rc :: rcs)

/-- Lines 519-536 of `quick_run` on the heap: copy and conditionally measure;
on hardware allocate a transpiled circuit, and with comparison also copy and
conditionally measure the caller's circuit a second time. -/
def qrHeap (tf : Circuit → Circuit) (isHw compareWithIdeal : Bool)
    (s : Store) (r : ℕ) : Store × ℕ :=
  let (s1, rc) := prepHeap s r
  if isHw then
    let (s2, rt) := allocRef s1 (tf (s1.getD rc default))
    if compareWithIdeal then ((prepHeap s2 r).1, rt) else (s2, rt)
  else (s1, rc)

/-- Console and notebook output events of the display helpers. -/
inductive RenderEvent
  | mplFigure (withTitle : Bool)
  | printTitle (t : String)
  | printTextDraw (s : String)
  | latexDisplay
  | printDrawError (e : SdkErr)
  | axesErrorText (e : SdkErr)
  | axesPanel (label : String)
deriving DecidableEq

/-- The `try` body of `_display_circuit` (lines 21-39): the `mpl` and
`latex` drawing primitives may raise; the plain-text `qc.draw()` is the
degraded total rendering (`drawText`). -/
def displayCircuitBody (drawMpl drawLatex : Circuit → Except SdkErr Unit)
    (drawText : Circuit → String) (style : String) (title : Option String)
    (qc : Circuit) : Except SdkErr (List RenderEvent) :=
  if style = "text" then
    .ok ((match title with | some t => [RenderEvent.printTitle t] | none => []) ++
      [RenderEvent.printTextDraw (drawText qc)])
  else if style = "latex" then
    match drawLatex qc with
    | .error e => .error e
    | .ok _ =>
      .ok ((match title with | some t => [RenderEvent.printTitle t] | none => []) ++
        [RenderEvent.latexDisplay])
  else
    match drawMpl qc with
    | .error e => .error e
    | .ok _ => .ok [RenderEvent.mplFigure title.isSome]

/-- Lines 19-42, `_display_circuit`: run the drawing body and catch any
exception, degrading to the error message plus the plain-text rendering
(lines 40-42). -/
def displayCircuitE (drawMpl drawLatex : Circuit → Except SdkErr Unit)
    (drawText : Circuit → String) (style : String) (title : Option String)
    (qc : Circuit) : Except SdkErr (List RenderEvent) :=
  match displayCircuitBody drawMpl drawLatex drawText style title qc with
  | .ok evs => .ok evs
  | .error e => .ok [RenderEvent.printDrawError e, RenderEvent.printTextDraw (drawText qc)]

/-- Lines 45-67, `_display_circuits_grid`: in `mpl` style each panel's
drawing is tried separately and a failure becomes error text on that panel;
other styles delegate to `_display_circuit` per circuit. -/
def displayCircuitsGridE (drawMpl drawLatex : Circuit → Except SdkErr Unit)
    (drawText : Circuit → String) (style : String)
    (circuits : List Circuit) (labels : List String) :
    Except SdkErr (List RenderEvent) :=
  if style = "mpl" then
    .ok ((circuits.zip labels).map (fun cl =>
      match drawMpl cl.1 with
      | .ok _ => RenderEvent.axesPanel cl.2
      | .error e => RenderEvent.axesErrorText e))
  else
    (circuits.zip labels).foldr
      (fun cl acc =>
        match displayCircuitE drawMpl drawLatex drawText style (some cl.2) cl.1 with
        | .ok evs =>
          match acc with
          | .ok rest => .ok (evs ++ rest)
          | .error e => .error e
        | .error e => .error e)
      (.ok [])

/-! ## Helper lemmas about the counts conversion -/

theorem pythonRound_nonneg {q : ℚ} (hq : 0 ≤ q) : 0 ≤ pythonRound q := by
  have hf : (0:ℤ) ≤ ⌊q⌋ := Int.floor_nonneg.mpr hq
  simp only [pythonRound]
  split_ifs <;> omega

theorem assignCounts_concat (shots : ℤ) :
    ∀ (l1 : List (QState × ℚ)) (z : QState × ℚ) (r : ℤ),
      assignCounts shots (l1 ++ [z]) r =
        (l1.map (fun x => (x.1, pythonRound (x.2 * shots)))) ++
          [(z.1, r - ((l1.map (fun x => pythonRound (x.2 * shots))).sum))]
  | [], z, r => by simp [assignCounts]
  | (st, p) :: t, z, r => by
    have ih := assignCounts_concat shots t z (r - pythonRound (p * shots))
    cases t with
    | nil => simp [assignCounts]
    | cons b t2 =>
      simp only [List.cons_append] at ih
      simp only [List.cons_append, assignCounts, List.append_eq, ih, List.map_cons,
        List.sum_cons, sub_sub]

theorem sumCounts_append (a b : Counts) :
    sumCounts (a ++ b) = sumCounts a + sumCounts b := by
  simp [sumCounts]

theorem sumCounts_filter_pos :
    ∀ (L : Counts), (∀ x ∈ L, 0 ≤ x.2) →
      sumCounts (L.filter (fun p => 0 < p.2)) = sumCounts L
  | [], _ => rfl
  | x :: t, h => by
    have ih := sumCounts_filter_pos t (fun y hy => h y (List.mem_cons_of_mem _ hy))
    have hx := h x (List.mem_cons_self x t)
    by_cases hpos : 0 < x.2
    · simp [List.filter_cons, hpos, sumCounts] at ih ⊢
      omega
    · have hx0 : x.2 = 0 := le_antisymm (not_lt.mp hpos) hx
      simp [List.filter_cons, hpos, sumCounts] at ih ⊢
      omega

theorem sortedProbs_perm (d : ProbDist) : (sortedProbs d).Perm d :=
  List.perm_insertionSort probGe d

theorem sortedProbs_ne_nil {d : ProbDist} (hd : d ≠ []) : sortedProbs d ≠ [] := by
  intro h
  have hp := sortedProbs_perm d
  rw [h] at hp
  exact hd hp.nil_eq.symm

theorem sum_filter_assign (shots : ℤ) (l : List (QState × ℚ)) (hl : l ≠ [])
    (hnn : ∀ x ∈ l, (0:ℚ) ≤ x.2) (hs : (0:ℚ) ≤ (shots : ℚ))
    (hlast : 0 ≤ shots - ((l.dropLast).map (fun x => pythonRound (x.2 * shots))).sum) :
    sumCounts ((assignCounts shots l shots).filter (fun p => 0 < p.2)) = shots := by
  conv_lhs => rw [← List.dropLast_append_getLast hl, assignCounts_concat]
  rw [sumCounts_filter_pos]
  · rw [sumCounts_append]
    simp only [sumCounts, List.map_map, Function.comp_def, List.map_cons, List.map_nil,
      List.sum_cons, List.sum_nil]
    omega
  · intro x hx
    rcases List.mem_append.mp hx with hA | hB
    · rcases List.mem_map.mp hA with ⟨y, hy, rfl⟩
      exact pythonRound_nonneg
        (mul_nonneg (hnn y (List.dropLast_sublist l |>.subset hy)) hs)
    · rcases List.mem_singleton.mp hB with rfl
      exact hlast

/-- Claim C1, counterexample to the claim as stated.  `cexDist` is a valid
theoretical distribution (strictly positive probabilities summing to 1 over
distinct states), yet for 20 requested shots the counts returned by
`_get_ideal_counts` sum to 21: each of the seven 13/100 buckets rounds
2.6 up to 3, the last bucket receives the remaining -1 shots, and the
`count > 0` filter of line 123 drops it instead of absorbing the error. -/
theorem ideal_counts_sum_counterexample :
    (∀ x ∈ cexDist, (0:ℚ) < x.2) ∧ ((cexDist.map (fun x => x.2)).sum = 1) ∧
      (cexDist.map Prod.fst).Nodup ∧
      sumCounts (getIdealCounts cexDist 20) = 21 := by
  refine ⟨by norm_num [cexDist], by norm_num [cexDist], by decide, ?_⟩
  norm_num [cexDist, getIdealCounts, sortedProbs, List.insertionSort,
    List.orderedInsert, probGe, assignCounts, pythonRound, sumCounts]

/-- Claim C1 (amended): for a nonempty theoretical distribution with
nonnegative probabilities and a positive shot count, the counts returned by
`_get_ideal_counts` sum exactly to the requested shots PROVIDED the shots
remaining for the last (lowest-probability) bucket after rounding the others
are nonnegative; the last bucket then absorbs the rounding error. -/
theorem ideal_counts_sum_eq_shots (d : ProbDist) (shots : ℤ)
    (hd : d ≠ []) (hnn : ∀ x ∈ d, (0:ℚ) ≤ x.2) (hshots : 0 < shots)
    (hlast : 0 ≤ lastRemaining d shots) :
    sumCounts (getIdealCounts d shots) = shots := by
  have hl : sortedProbs d ≠ [] := sortedProbs_ne_nil hd
  rw [getIdealCounts]
  exact sum_filter_assign shots (sortedProbs d) hl
    (fun x hx => hnn x ((sortedProbs_perm d).subset hx))
    (by exact_mod_cast hshots.le) hlast

/-- Witness for the amended claim C1 at the uniform two-state distribution
with 4 shots. -/
theorem ideal_counts_sum_eq_shots_witness :
    sumCounts (getIdealCounts [("0", 1/2), ("1", 1/2)] 4) = 4 :=
  ideal_counts_sum_eq_shots [("0", 1/2), ("1", 1/2)] 4 (by simp) (by norm_num)
    (by norm_num)
    (by norm_num [lastRemaining, sortedProbs, List.insertionSort,
      List.orderedInsert, probGe, pythonRound])

/-- Claim C2: the states are processed in descending probability order
(the processed list is sorted by `probGe`), and every assigned bucket except
the last equals the state's probability times the shot count rounded to the
nearest integer (Python `round`, ties to even). -/
theorem ideal_counts_nonlast_rounded (d : ProbDist) (shots : ℤ) :
    (assignCounts shots (sortedProbs d) shots).dropLast =
      (sortedProbs d).dropLast.map (fun x => (x.1, pythonRound (x.2 * shots))) ∧
    List.Sorted probGe (sortedProbs d) := by
  constructor
  · by_cases hd : sortedProbs d = []
    · simp [hd, assignCounts]
    · conv_lhs => rw [← List.dropLast_append_getLast hd, assignCounts_concat]
      rw [List.dropLast_concat]
  · exact List.sorted_insertionSort probGe d

/-- Claim C9: a pair is in the mapping returned by `_get_ideal_counts`
exactly when the loop assigned it and its count is strictly positive; in
particular every returned value is strictly positive and zero or negative
buckets (the last bucket included) are omitted. -/
theorem ideal_counts_mem_iff (d : ProbDist) (shots : ℤ) (x : QState × ℤ) :
    x ∈ getIdealCounts d shots ↔
      x ∈ assignCounts shots (sortedProbs d) shots ∧ 0 < x.2 := by
  simp [getIdealCounts, List.mem_filter]

/-- Claim C8: `_get_ideal_counts` is deterministic.  Its only internal
degree of freedom is the stable descending sort of line 111; any two
outcomes of the relational description of a run coincide, because a stable
descending sort of a dict's items is unique. -/
theorem ideal_counts_deterministic (d : ProbDist) (shots : ℤ) (out1 out2 : Counts)
    (h1 : IdealCountsOutcome d shots out1) (h2 : IdealCountsOutcome d shots out2) :
    out1 = out2 := by
  obtain ⟨l1, ⟨el1, hm1, hp1, hs1⟩, ho1⟩ := h1
  obtain ⟨l2, ⟨el2, hm2, hp2, hs2⟩, ho2⟩ := h2
  haveI : IsAntisymm (ℕ × (QState × ℚ)) probDescAt := ⟨by
    intro a b hab hba
    exfalso
    rcases hab with h | ⟨he, hi⟩ <;> rcases hba with h2 | ⟨he2, hi2⟩
    · exact lt_asymm h h2
    · rw [he2] at h; exact lt_irrefl _ h
    · rw [he] at h2; exact lt_irrefl _ h2
    · omega⟩
  have hel : el1 = el2 :=
    List.eq_of_perm_of_sorted (hp1.trans hp2.symm) hs1 hs2
  rw [ho1, ho2, ← hm1, ← hm2, hel]

/-- Witness for claim C8: the distribution (2/3, 1/3) with 3 shots admits
the outcome (2, 1), and two runs agree on it. -/
theorem ideal_counts_deterministic_witness :
    ([("1", 2), ("0", 1)] : Counts) = [("1", 2), ("0", 1)] := by
  have hout : IdealCountsOutcome [("1", 2/3), ("0", 1/3)] 3 [("1", 2), ("0", 1)] := by
    refine ⟨[("1", 2/3), ("0", 1/3)],
      ⟨[(0, ("1", 2/3)), (1, ("0", 1/3))], rfl, List.Perm.refl _, ?_⟩, ?_⟩
    · refine List.pairwise_cons.mpr ⟨?_, List.pairwise_singleton _ _⟩
      intro b hb
      rw [List.mem_singleton.mp hb]
      exact Or.inl (by norm_num)
    · norm_num [assignCounts, pythonRound]
  exact ideal_counts_deterministic [("1", 2/3), ("0", 1/3)] 3 _ _ hout hout

/-! ## Helper lemmas about the pipeline embeddings -/

theorem getIdealCountsE_error {sv : Circuit → Except SdkErr ProbDist} {c shots e}
    (h : getIdealCountsE sv c shots = .error e) : sv (stripMeasure c) = .error e := by
  unfold getIdealCountsE at h
  cases hsv : sv (stripMeasure c) <;> rw [hsv] at h <;> simp_all

theorem transpileAll_error {tf : Circuit → Except SdkErr Circuit} :
    ∀ {cs : List Circuit} {e}, transpileAll tf cs = .error e → ∃ c, tf c = .error e
  | [], _, h => by simp [transpileAll] at h
  | c :: cs, e, h => by
    unfold transpileAll at h
    cases htf : tf c with
    | error e2 => rw [htf] at h; exact ⟨c, htf.trans (by simp_all)⟩
    | ok c2 =>
      rw [htf] at h
      cases hrest : transpileAll tf cs with
      | error e2 =>
        rw [hrest] at h
        obtain ⟨w, hw⟩ := transpileAll_error hrest
        exact ⟨w, hw.trans (by simp_all)⟩
      | ok cs2 => rw [hrest] at h; simp_all

theorem transpileAll_ok_mem {tf : Circuit → Except SdkErr Circuit} :
    ∀ {ws cs : List Circuit}, transpileAll tf ws = .ok cs →
      ∀ c ∈ cs, ∃ w ∈ ws, tf w = .ok c
  | [], cs, h => by
    simp [transpileAll] at h
    subst h
    simp
  | w :: ws, cs, h => by
    unfold transpileAll at h
    cases htf : tf w with
    | error e2 => rw [htf] at h; simp_all
    | ok c2 =>
      rw [htf] at h
      cases hrest : transpileAll tf ws with
      | error e2 => rw [hrest] at h; simp_all
      | ok cs2 =>
        rw [hrest] at h
        have hcs : cs = c2 :: cs2 := by simp_all
        subst hcs
        intro c hc
        rcases List.mem_cons.mp hc with rfl | hc2
        · exact ⟨w, List.mem_cons_self w ws, htf⟩
        · obtain ⟨w2, hw2, htf2⟩ := transpileAll_ok_mem hrest c hc2
          exact ⟨w2, List.mem_cons_of_mem w hw2, htf2⟩

theorem idealAll_error {sv : Circuit → Except SdkErr ProbDist} {shots : ℤ} :
    ∀ {cs : List Circuit} {e}, idealAll sv shots cs = .error e → ∃ c, sv c = .error e
  | [], _, h => by simp [idealAll] at h
  | c :: cs, e, h => by
    unfold idealAll at h
    cases hk : getIdealCountsE sv c shots with
    | error e2 =>
      rw [hk] at h
      refine ⟨stripMeasure c, (getIdealCountsE_error hk).trans (by simp_all)⟩
    | ok k =>
      rw [hk] at h
      cases hrest : idealAll sv shots cs with
      | error e2 =>
        rw [hrest] at h
        obtain ⟨w, hw⟩ := idealAll_error hrest
        exact ⟨w, hw.trans (by simp_all)⟩
      | ok ks => rw [hrest] at h; simp_all

/-- Claim C10: a backend is treated as hardware exactly when it has a
`simulator` attribute whose value is falsy; a backend lacking the attribute
and the default `AerSimulator` substituted for `None` count as simulators,
in which case each function ignores the transpile primitive (no
transpilation occurs), ignores the state-vector primitive (no
ideal-versus-hardware comparison occurs), behaves as with the default
backend when `None` was passed, and returns a single non-tuple result. -/
theorem hardware_detection :
    (∀ b : Backend, isHardware b = true ↔ b.simulator = some false) ∧
    isHardware aerSimulator = false ∧
    (∀ tf sampler sv shots cmp opt qc,
      runAndVisualize tf sampler sv none shots cmp opt qc =
        runAndVisualize tf sampler sv (some aerSimulator) shots cmp opt qc) ∧
    (∀ tf1 tf2 sampler sv1 sv2 bArg shots cmp opt qc,
      isHardware (resolveBackend bArg) = false →
      runAndVisualize tf1 sampler sv1 bArg shots cmp opt qc =
        runAndVisualize tf2 sampler sv2 bArg shots cmp opt qc) ∧
    (∀ tf sampler sv bArg shots cmp opt qc v,
      isHardware (resolveBackend bArg) = false →
      runAndVisualize tf sampler sv bArg shots cmp opt qc = .ok v →
      ∃ counts, v = .inl counts) ∧
    (∀ tf1 tf2 samplerB sv1 sv2 bArg shots cmp qcs,
      isHardware (resolveBackend bArg) = false →
      compareCircuits tf1 samplerB sv1 bArg shots cmp qcs =
        compareCircuits tf2 samplerB sv2 bArg shots cmp qcs) ∧
    (∀ tf samplerB sv bArg shots cmp qcs v,
      isHardware (resolveBackend bArg) = false →
      compareCircuits tf samplerB sv bArg shots cmp qcs = .ok v →
      ∃ all, v = .inl all) ∧
    (∀ tf1 tf2 sampler sv1 sv2 bArg shots cmp qc,
      isHardware (resolveBackend bArg) = false →
      quickRun tf1 sampler sv1 bArg shots cmp qc =
        quickRun tf2 sampler sv2 bArg shots cmp qc) ∧
    (∀ tf sampler sv bArg shots cmp qc v,
      isHardware (resolveBackend bArg) = false →
      quickRun tf sampler sv bArg shots cmp qc = .ok v →
      ∃ counts, v = .inl counts) := by
  refine ⟨?_, rfl, ?_, ?_, ?_, ?_, ?_, ?_, ?_⟩
  · intro b
    cases hb : b.simulator with
    | none => simp [isHardware, hb]
    | some t => cases t <;> simp [isHardware, hb]
  · intro tf sampler sv shots cmp opt qc
    rfl
  · intro tf1 tf2 sampler sv1 sv2 bArg shots cmp opt qc hs
    simp [runAndVisualize, ravHwCircuit, hs]
  · intro tf sampler sv bArg shots cmp opt qc v hs hok
    simp only [runAndVisualize, ravHwCircuit, hs, Bool.false_and, if_false,
      Bool.false_eq_true, reduceIte] at hok
    cases hsam : sampler (withMeasure qc) <;> rw [hsam] at hok <;> simp_all
    exact ⟨_, hok.symm⟩
  · intro tf1 tf2 samplerB sv1 sv2 bArg shots cmp qcs hs
    simp [compareCircuits, cmpHwCircuits, hs]
  · intro tf samplerB sv bArg shots cmp qcs v hs hok
    simp only [compareCircuits, cmpHwCircuits, hs, Bool.false_and, if_false,
      Bool.false_eq_true, reduceIte] at hok
    cases hsam : samplerB (qcs.map withMeasure) <;> rw [hsam] at hok <;> simp_all
    exact ⟨_, hok.symm⟩
  · intro tf1 tf2 sampler sv1 sv2 bArg shots cmp qc hs
    simp [quickRun, qrExecCircuit, hs]
  · intro tf sampler sv bArg shots cmp qc v hs hok
    simp only [quickRun, qrExecCircuit, hs, Bool.false_and, if_false,
      Bool.false_eq_true, reduceIte] at hok
    cases hsam : sampler (withMeasure qc) <;> rw [hsam] at hok <;> simp_all
    exact ⟨_, hok.symm⟩

/-- Witness for claim C10: with no backend given the default simulator is
used and a concrete run returns a single non-tuple counts result. -/
theorem hardware_detection_witness :
    ∃ counts, (Sum.inl ([("0", 5)] : Counts) : RAVResult) = Sum.inl counts :=
  hardware_detection.2.2.2.2.1 (fun c => .ok c) (fun _ => .ok [("0", 5)])
    (fun _ => .ok []) none 5 true true default (Sum.inl [("0", 5)]) rfl rfl

/-- Claim C5: `run_and_visualize` and `quick_run` return an (ideal,
hardware) pair exactly when the backend is detected as hardware and
`compare_with_ideal` is set, and otherwise a single counts dict;
`compare_circuits` likewise returns a pair of lists exactly in the
hardware-with-comparison case and a single list otherwise. -/
theorem tuple_iff_hardware_compare :
    (∀ tf sampler sv bArg shots cmp opt qc v,
      runAndVisualize tf sampler sv bArg shots cmp opt qc = .ok v →
      ((∃ p, v = .inr p) ↔
        (isHardware (resolveBackend bArg) = true ∧ cmp = true))) ∧
    (∀ tf samplerB sv bArg shots cmp qcs v,
      compareCircuits tf samplerB sv bArg shots cmp qcs = .ok v →
      ((∃ p, v = .inr p) ↔
        (isHardware (resolveBackend bArg) = true ∧ cmp = true))) ∧
    (∀ tf sampler sv bArg shots cmp qc v,
      quickRun tf sampler sv bArg shots cmp qc = .ok v →
      ((∃ p, v = .inr p) ↔
        (isHardware (resolveBackend bArg) = true ∧ cmp = true))) := by
  refine ⟨?_, ?_, ?_⟩
  · intro tf sampler sv bArg shots cmp opt qc v hok
    simp only [runAndVisualize] at hok
    cases hE : ravHwCircuit tf bArg opt qc with
    | error e => rw [hE] at hok; simp at hok
    | ok hw =>
      rw [hE] at hok
      dsimp only at hok
      by_cases hc : (isHardware (resolveBackend bArg) && cmp) = true
      · rw [if_pos hc] at hok
        cases hI : getIdealCountsE sv (withMeasure qc) shots with
        | error e => rw [hI] at hok; simp at hok
        | ok ideal =>
          rw [hI] at hok
          cases hS : sampler hw with
          | error e => rw [hS] at hok; simp at hok
          | ok hwc =>
            rw [hS] at hok
            simp only [Except.ok.injEq] at hok
            subst hok
            simp only [Bool.and_eq_true] at hc
            exact iff_of_true ⟨_, rfl⟩ hc
      · rw [if_neg hc] at hok
        cases hS : sampler hw with
        | error e => rw [hS] at hok; simp at hok
        | ok counts =>
          rw [hS] at hok
          simp only [Except.ok.injEq] at hok
          subst hok
          refine iff_of_false ?_ ?_
          · rintro ⟨p, hp⟩; exact Sum.noConfusion hp
          · rintro ⟨h1, h2⟩; exact hc (by rw [h1, h2]; rfl)
  · intro tf samplerB sv bArg shots cmp qcs v hok
    simp only [compareCircuits] at hok
    cases hE : cmpHwCircuits tf bArg qcs with
    | error e => rw [hE] at hok; simp at hok
    | ok hws =>
      rw [hE] at hok
      dsimp only at hok
      by_cases hc : (isHardware (resolveBackend bArg) && cmp) = true
      · rw [if_pos hc] at hok
        cases hI : idealAll sv shots (qcs.map withMeasure) with
        | error e => rw [hI] at hok; simp at hok
        | ok ideals =>
          rw [hI] at hok
          cases hS : samplerB hws with
          | error e => rw [hS] at hok; simp at hok
          | ok hwcs =>
            rw [hS] at hok
            simp only [Except.ok.injEq] at hok
            subst hok
            simp only [Bool.and_eq_true] at hc
            exact iff_of_true ⟨_, rfl⟩ hc
      · rw [if_neg hc] at hok
        cases hS : samplerB hws with
        | error e => rw [hS] at hok; simp at hok
        | ok alls =>
          rw [hS] at hok
          simp only [Except.ok.injEq] at hok
          subst hok
          refine iff_of_false ?_ ?_
          · rintro ⟨p, hp⟩; exact Sum.noConfusion hp
          · rintro ⟨h1, h2⟩; exact hc (by rw [h1, h2]; rfl)
  · intro tf sampler sv bArg shots cmp qc v hok
    simp only [quickRun] at hok
    cases hE : qrExecCircuit tf bArg qc with
    | error e => rw [hE] at hok; simp at hok
    | ok execC =>
      rw [hE] at hok
      dsimp only at hok
      by_cases hc : (isHardware (resolveBackend bArg) && cmp) = true
      · rw [if_pos hc] at hok
        cases hI : getIdealCountsE sv (withMeasure qc) shots with
        | error e => rw [hI] at hok; simp at hok
        | ok ideal =>
          rw [hI] at hok
          cases hS : sampler execC with
          | error e => rw [hS] at hok; simp at hok
          | ok hwc =>
            rw [hS] at hok
            simp only [Except.ok.injEq] at hok
            subst hok
            simp only [Bool.and_eq_true] at hc
            exact iff_of_true ⟨_, rfl⟩ hc
      · rw [if_neg hc] at hok
        cases hS : sampler execC with
        | error e => rw [hS] at hok; simp at hok
        | ok counts =>
          rw [hS] at hok
          simp only [Except.ok.injEq] at hok
          subst hok
          refine iff_of_false ?_ ?_
          · rintro ⟨p, hp⟩; exact Sum.noConfusion hp
          · rintro ⟨h1, h2⟩; exact hc (by rw [h1, h2]; rfl)

/-- Witness for claim C5: a simulator run returns a single counts dict, so
no pair exists and the backend is not hardware. -/
theorem tuple_iff_hardware_compare_witness :
    (∃ p, (Sum.inl ([("0", 7)] : Counts) : RAVResult) = Sum.inr p) ↔
      (isHardware (resolveBackend none) = true ∧ true = true) :=
  tuple_iff_hardware_compare.1 (fun c => .ok c) (fun _ => .ok [("0", 7)])
    (fun _ => .ok []) none 7 true true default (Sum.inl [("0", 7)]) rfl

/-- Claim C7: no failure other than drawing is handled.  Any error returned
by `run_and_visualize`, `compare_circuits` or `quick_run` is exactly an
error raised by the transpile, sampler or state-vector SDK primitive
(nothing else raises and nothing is transformed), and conversely, for each
of the three functions, an error raised at its call site by transpilation,
by sampler execution, or by the state-vector computation in the comparison
path surfaces unmodified to the caller. -/
theorem sdk_errors_propagate :
    (∀ tf sampler sv bArg shots cmp opt qc e,
      runAndVisualize tf sampler sv bArg shots cmp opt qc = .error e →
      (∃ c, tf c = .error e) ∨ (∃ c, sampler c = .error e) ∨
        (∃ c, sv c = .error e)) ∧
    (∀ tf samplerB sv bArg shots cmp qcs e,
      compareCircuits tf samplerB sv bArg shots cmp qcs = .error e →
      (∃ c, tf c = .error e) ∨ (∃ cs, samplerB cs = .error e) ∨
        (∃ c, sv c = .error e)) ∧
    (∀ tf sampler sv bArg shots cmp qc e,
      quickRun tf sampler sv bArg shots cmp qc = .error e →
      (∃ c, tf c = .error e) ∨ (∃ c, sampler c = .error e) ∨
        (∃ c, sv c = .error e)) ∧
    (∀ tf sampler sv bArg shots cmp qc e,
      isHardware (resolveBackend bArg) = true →
      tf (withMeasure qc) = .error e →
      runAndVisualize tf sampler sv bArg shots cmp true qc = .error e) ∧
    (∀ tf sampler sv bArg shots cmp opt qc e,
      isHardware (resolveBackend bArg) = false →
      sampler (withMeasure qc) = .error e →
      runAndVisualize tf sampler sv bArg shots cmp opt qc = .error e) ∧
    (∀ tf sampler sv bArg shots qc e,
      isHardware (resolveBackend bArg) = true →
      sv (stripMeasure (withMeasure qc)) = .error e →
      runAndVisualize tf sampler sv bArg shots true false qc = .error e) ∧
    (∀ tf samplerB sv bArg shots cmp qcs e,
      isHardware (resolveBackend bArg) = true →
      transpileAll tf (qcs.map withMeasure) = .error e →
      compareCircuits tf samplerB sv bArg shots cmp qcs = .error e) ∧
    (∀ tf samplerB sv bArg shots cmp qcs e,
      isHardware (resolveBackend bArg) = false →
      samplerB (qcs.map withMeasure) = .error e →
      compareCircuits tf samplerB sv bArg shots cmp qcs = .error e) ∧
    (∀ tf samplerB sv bArg shots qcs hws e,
      isHardware (resolveBackend bArg) = true →
      transpileAll tf (qcs.map withMeasure) = .ok hws →
      idealAll sv shots (qcs.map withMeasure) = .error e →
      compareCircuits tf samplerB sv bArg shots true qcs = .error e) ∧
    (∀ tf sampler sv bArg shots cmp qc e,
      isHardware (resolveBackend bArg) = true →
      tf (withMeasure qc) = .error e →
      quickRun tf sampler sv bArg shots cmp qc = .error e) ∧
    (∀ tf sampler sv bArg shots cmp qc e,
      isHardware (resolveBackend bArg) = false →
      sampler (withMeasure qc) = .error e →
      quickRun tf sampler sv bArg shots cmp qc = .error e) ∧
    (∀ tf sampler sv bArg shots qc c2 e,
      isHardware (resolveBackend bArg) = true →
      tf (withMeasure qc) = .ok c2 →
      sv (stripMeasure (withMeasure qc)) = .error e →
      quickRun tf sampler sv bArg shots true qc = .error e) := by
  refine ⟨?_, ?_, ?_, ?_, ?_, ?_, ?_, ?_, ?_, ?_, ?_, ?_⟩
  · intro tf sampler sv bArg shots cmp opt qc e herr
    simp only [runAndVisualize] at herr
    cases hE : ravHwCircuit tf bArg opt qc with
    | error e2 =>
      rw [hE] at herr
      dsimp only at herr
      simp only [Except.error.injEq] at herr
      subst herr
      left
      unfold ravHwCircuit at hE
      by_cases hcond : (isHardware (resolveBackend bArg) && opt) = true
      · rw [if_pos hcond] at hE; exact ⟨_, hE⟩
      · rw [if_neg hcond] at hE; simp at hE
    | ok hw =>
      rw [hE] at herr
      dsimp only at herr
      by_cases hc : (isHardware (resolveBackend bArg) && cmp) = true
      · rw [if_pos hc] at herr
        cases hI : getIdealCountsE sv (withMeasure qc) shots with
        | error e2 =>
          rw [hI] at herr
          simp only [Except.error.injEq] at herr
          subst herr
          exact Or.inr (Or.inr ⟨_, getIdealCountsE_error hI⟩)
        | ok ideal =>
          rw [hI] at herr
          cases hS : sampler hw with
          | error e2 =>
            rw [hS] at herr
            simp only [Except.error.injEq] at herr
            subst herr
            exact Or.inr (Or.inl ⟨hw, hS⟩)
          | ok hwc => rw [hS] at herr; simp at herr
      · rw [if_neg hc] at herr
        cases hS : sampler hw with
        | error e2 =>
          rw [hS] at herr
          simp only [Except.error.injEq] at herr
          subst herr
          exact Or.inr (Or.inl ⟨hw, hS⟩)
        | ok counts => rw [hS] at herr; simp at herr
  · intro tf samplerB sv bArg shots cmp qcs e herr
    simp only [compareCircuits] at herr
    cases hE : cmpHwCircuits tf bArg qcs with
    | error e2 =>
      rw [hE] at herr
      dsimp only at herr
      simp only [Except.error.injEq] at herr
      subst herr
      left
      unfold cmpHwCircuits at hE
      by_cases hcond : isHardware (resolveBackend bArg) = true
      · rw [if_pos hcond] at hE; exact transpileAll_error hE
      · rw [if_neg hcond] at hE; simp at hE
    | ok hws =>
      rw [hE] at herr
      dsimp only at herr
      by_cases hc : (isHardware (resolveBackend bArg) && cmp) = true
      · rw [if_pos hc] at herr
        cases hI : idealAll sv shots (qcs.map withMeasure) with
        | error e2 =>
          rw [hI] at herr
          simp only [Except.error.injEq] at herr
          subst herr
          exact Or.inr (Or.inr (idealAll_error hI))
        | ok ideals =>
          rw [hI] at herr
          cases hS : samplerB hws with
          | error e2 =>
            rw [hS] at herr
            simp only [Except.error.injEq] at herr
            subst herr
            exact Or.inr (Or.inl ⟨hws, hS⟩)
          | ok hwcs => rw [hS] at herr; simp at herr
      · rw [if_neg hc] at herr
        cases hS : samplerB hws with
        | error e2 =>
          rw [hS] at herr
          simp only [Except.error.injEq] at herr
          subst herr
          exact Or.inr (Or.inl ⟨hws, hS⟩)
        | ok alls => rw [hS] at herr; simp at herr
  · intro tf sampler sv bArg shots cmp qc e herr
    simp only [quickRun] at herr
    cases hE : qrExecCircuit tf bArg qc with
    | error e2 =>
      rw [hE] at herr
      dsimp only at herr
      simp only [Except.error.injEq] at herr
      subst herr
      left
      unfold qrExecCircuit at hE
      by_cases hcond : isHardware (resolveBackend bArg) = true
      · rw [if_pos hcond] at hE; exact ⟨_, hE⟩
      · rw [if_neg hcond] at hE; simp at hE
    | ok execC =>
      rw [hE] at herr
      dsimp only at herr
      by_cases hc : (isHardware (resolveBackend bArg) && cmp) = true
      · rw [if_pos hc] at herr
        cases hI : getIdealCountsE sv (withMeasure qc) shots with
        | error e2 =>
          rw [hI] at herr
          simp only [Except.error.injEq] at herr
          subst herr
          exact Or.inr (Or.inr ⟨_, getIdealCountsE_error hI⟩)
        | ok ideal =>
          rw [hI] at herr
          cases hS : sampler execC with
          | error e2 =>
            rw [hS] at herr
            simp only [Except.error.injEq] at herr
            subst herr
            exact Or.inr (Or.inl ⟨execC, hS⟩)
          | ok hwc => rw [hS] at herr; simp at herr
      · rw [if_neg hc] at herr
        cases hS : sampler execC with
        | error e2 =>
          rw [hS] at herr
          simp only [Except.error.injEq] at herr
          subst herr
          exact Or.inr (Or.inl ⟨execC, hS⟩)
        | ok counts => rw [hS] at herr; simp at herr
  · intro tf sampler sv bArg shots cmp qc e hhw htf
    simp [runAndVisualize, ravHwCircuit, hhw, htf]
  · intro tf sampler sv bArg shots cmp opt qc e hhw hsam
    simp [runAndVisualize, ravHwCircuit, hhw, hsam]
  · intro tf sampler sv bArg shots qc e hhw hsv
    simp [runAndVisualize, ravHwCircuit, getIdealCountsE, hhw, hsv]
  · intro tf samplerB sv bArg shots cmp qcs e hhw htf
    simp [compareCircuits, cmpHwCircuits, hhw, htf]
  · intro tf samplerB sv bArg shots cmp qcs e hhw hsam
    simp [compareCircuits, cmpHwCircuits, hhw, hsam]
  · intro tf samplerB sv bArg shots qcs hws e hhw htf hI
    simp [compareCircuits, cmpHwCircuits, hhw, htf, hI]
  · intro tf sampler sv bArg shots cmp qc e hhw htf
    simp [quickRun, qrExecCircuit, hhw, htf]
  · intro tf sampler sv bArg shots cmp qc e hhw hsam
    simp [quickRun, qrExecCircuit, hhw, hsam]
  · intro tf sampler sv bArg shots qc c2 e hhw htf hsv
    simp [quickRun, qrExecCircuit, getIdealCountsE, hhw, htf, hsv]

/-- Witness for claim C7: a failing transpile on a hardware backend
surfaces its error through `run_and_visualize`. -/
theorem sdk_errors_propagate_witness :
    runAndVisualize (fun _ => .error "transpile failed") (fun _ => .ok [])
      (fun _ => .ok []) (some { name := "ibm_real", simulator := some false })
      9 true true default = .error "transpile failed" :=
  sdk_errors_propagate.2.2.2.1 (fun _ => .error "transpile failed")
    (fun _ => .ok []) (fun _ => .ok [])
    (some { name := "ibm_real", simulator := some false }) 9 true default
    "transpile failed" rfl rfl

/-- Claim C3, counterexample to the claim as stated: the functions add
measurement only when the circuit has no classical registers (lines 171,
355, 520), not when it does not measure its qubits.  `cregNoMeasure` has a
classical register and no measure instruction; no measurement is added and
it is handed to the sampler unmeasured by `run_and_visualize` and
`quick_run` alike. -/
theorem measurement_condition_counterexample :
    cregNoMeasure.hasMeasure = false ∧
    withMeasure cregNoMeasure = cregNoMeasure ∧
    ravHwCircuit (fun c => .ok c) none true cregNoMeasure = .ok cregNoMeasure ∧
    qrExecCircuit (fun c => .ok c) none cregNoMeasure = .ok cregNoMeasure := by
  refine ⟨rfl, ?_, ?_, ?_⟩ <;>
    simp [withMeasure, ravHwCircuit, qrExecCircuit, cregNoMeasure]

/-- Claim C3 (amended): each pipeline copies the circuit, adds measurement
to the copy whenever it has NO CLASSICAL REGISTERS, optionally transpiles,
and executes via the sampler.  A circuit with at least one qubit and no
classical registers therefore never reaches execution without measurement
having been added: the prepared copy measures, and every circuit handed to
the sampler is the prepared copy or its transpilation. -/
theorem measurement_added_before_execution :
    (∀ qc : Circuit, qc.cregs = [] → 0 < qc.numQubits →
      (withMeasure qc).hasMeasure = true) ∧
    (∀ tf bArg opt (qc c : Circuit), ravHwCircuit tf bArg opt qc = .ok c →
      c = withMeasure qc ∨ tf (withMeasure qc) = .ok c) ∧
    (∀ tf bArg (qcs cs : List Circuit), cmpHwCircuits tf bArg qcs = .ok cs →
      ∀ c ∈ cs, ∃ qc ∈ qcs, c = withMeasure qc ∨ tf (withMeasure qc) = .ok c) ∧
    (∀ tf bArg (qc c : Circuit), qrExecCircuit tf bArg qc = .ok c →
      c = withMeasure qc ∨ tf (withMeasure qc) = .ok c) := by
  refine ⟨?_, ?_, ?_, ?_⟩
  · intro qc h1 h2
    unfold withMeasure
    rw [if_pos h1]
    simp only [Circuit.hasMeasure, Circuit.measureAll, List.any_append,
      Bool.or_eq_true]
    right
    rw [List.any_eq_true]
    exact ⟨QOp.measure, List.mem_replicate.mpr ⟨h2.ne', rfl⟩, rfl⟩
  · intro tf bArg opt qc c h
    unfold ravHwCircuit at h
    by_cases hcond : (isHardware (resolveBackend bArg) && opt) = true
    · rw [if_pos hcond] at h; exact Or.inr h
    · rw [if_neg hcond] at h
      simp only [Except.ok.injEq] at h
      exact Or.inl h.symm
  · intro tf bArg qcs cs h c hc
    unfold cmpHwCircuits at h
    by_cases hcond : isHardware (resolveBackend bArg) = true
    · rw [if_pos hcond] at h
      obtain ⟨w, hw, htf⟩ := transpileAll_ok_mem h c hc
      obtain ⟨qc, hqc, rfl⟩ := List.mem_map.mp hw
      exact ⟨qc, hqc, Or.inr htf⟩
    · rw [if_neg hcond] at h
      simp only [Except.ok.injEq] at h
      subst h
      obtain ⟨qc, hqc, rfl⟩ := List.mem_map.mp hc
      exact ⟨qc, hqc, Or.inl rfl⟩
  · intro tf bArg qc c h
    unfold qrExecCircuit at h
    by_cases hcond : isHardware (resolveBackend bArg) = true
    · rw [if_pos hcond] at h; exact Or.inr h
    · rw [if_neg hcond] at h
      simp only [Except.ok.injEq] at h
      exact Or.inl h.symm

/-- Witness for the amended claim C3: a one-qubit circuit without classical
registers measures after preparation. -/
theorem measurement_added_before_execution_witness :
    (withMeasure { numQubits := 1, cregs := [], ops := [QOp.gate "h"] }).hasMeasure = true :=
  measurement_added_before_execution.1
    { numQubits := 1, cregs := [], ops := [QOp.gate "h"] } rfl Nat.one_pos

/-! ## Helper lemmas about the heap model -/

theorem getD_append_lt (s : Store) (c : Circuit) (j : ℕ) (d : Circuit)
    (h : j < s.length) : (s ++ [c]).getD j d = s.getD j d := by
  simp [List.getD_eq_getElem?_getD, List.getElem?_append_left h]

theorem getD_set_ne (s : Store) (i j : ℕ) (c d : Circuit) (h : i ≠ j) :
    (s.set i c).getD j d = s.getD j d := by
  simp [List.getD_eq_getElem?_getD, List.getElem?_set_ne h]

theorem prepHeap_length (s : Store) (r : ℕ) :
    (prepHeap s r).1.length = s.length + 1 := by
  unfold prepHeap copyRef measureAllRef
  dsimp only
  split <;> simp

theorem prepHeap_frame (s : Store) (r j : ℕ) (d : Circuit) (h : j < s.length) :
    ((prepHeap s r).1).getD j d = s.getD j d := by
  unfold prepHeap copyRef measureAllRef
  dsimp only
  split
  · rw [getD_set_ne _ _ _ _ _ (by omega)]
    exact getD_append_lt s _ j d h
  · exact getD_append_lt s _ j d h

theorem ravHeap_frame (tf : Circuit → Circuit) (isHw opt : Bool)
    (s : Store) (r j : ℕ) (d : Circuit) (h : j < s.length) :
    ((ravHeap tf isHw opt s r).1).getD j d = s.getD j d := by
  rcases hps : prepHeap s r with ⟨s1, rc⟩
  have hfr : s1.getD j d = s.getD j d := by
    have := prepHeap_frame s r j d h
    rw [hps] at this
    exact this
  have hlen : j < s1.length := by
    have := prepHeap_length s r
    rw [hps] at this
    simp only at this
    omega
  unfold ravHeap allocRef
  rw [hps]
  dsimp only
  split
  · rw [getD_append_lt s1 _ j d hlen]
    exact hfr
  · exact hfr

theorem cmpPrepHeap_frame :
    ∀ (rs : List ℕ) (s : Store) (j : ℕ) (d : Circuit), j < s.length →
      ((cmpPrepHeap s rs).1).getD j d = s.getD j d
  | [], _, _, _, _ => rfl
  | r :: rs, s, j, d, h => by
    rcases hps : prepHeap s r with ⟨s1, rc⟩
    have hfr : s1.getD j d = s.getD j d := by
      have := prepHeap_frame s r j d h
      rw [hps] at this
      exact this
    have hlen : j < s1.length := by
      have := prepHeap_length s r
      rw [hps] at this
      simp only at this
      omega
    have ih := cmpPrepHeap_frame rs s1 j d hlen
    unfold cmpPrepHeap
    rw [hps]
    dsimp only
    rcases hc : cmpPrepHeap s1 rs with ⟨s2, rcs⟩
    rw [hc] at ih
    dsimp only at ih
    exact ih.trans hfr

theorem qrHeap_frame (tf : Circuit → Circuit) (isHw cmp : Bool)
    (s : Store) (r j : ℕ) (d : Circuit) (h : j < s.length) :
    ((qrHeap tf isHw cmp s r).1).getD j d = s.getD j d := by
  rcases hps : prepHeap s r with ⟨s1, rc⟩
  have hfr : s1.getD j d = s.getD j d := by
    have := prepHeap_frame s r j d h
    rw [hps] at this
    exact this
  have hlen : j < s1.length := by
    have := prepHeap_length s r
    rw [hps] at this
    simp only at this
    omega
  have hlen2 : j < (s1 ++ [tf (s1.getD rc default)]).length := by
    simp
    omega
  unfold qrHeap allocRef
  rw [hps]
  dsimp only
  split
  · split
    · rw [prepHeap_frame _ r j d hlen2, getD_append_lt s1 _ j d hlen]
      exact hfr
    · rw [getD_append_lt s1 _ j d hlen]
      exact hfr
  · exact hfr

/-- Claim C4: none of the three pipelines mutates the caller's circuit
objects.  On the explicit heap, `measure_all` only ever mutates the freshly
copied object and `transpile` allocates a fresh object, so every heap cell
that existed before the call is unchanged afterwards; in particular each
input circuit is unchanged when the call returns. -/
theorem caller_circuits_unchanged :
    (∀ (tf : Circuit → Circuit) (isHw opt : Bool) (s : Store) (r j : ℕ)
      (d : Circuit), j < s.length →
      ((ravHeap tf isHw opt s r).1).getD j d = s.getD j d) ∧
    (∀ (s : Store) (rs : List ℕ) (j : ℕ) (d : Circuit), j < s.length →
      ((cmpPrepHeap s rs).1).getD j d = s.getD j d) ∧
    (∀ (tf : Circuit → Circuit) (isHw cmp : Bool) (s : Store) (r j : ℕ)
      (d : Circuit), j < s.length →
      ((qrHeap tf isHw cmp s r).1).getD j d = s.getD j d) :=
  ⟨ravHeap_frame, fun s rs => cmpPrepHeap_frame rs s, qrHeap_frame⟩

/-- Witness for claim C4: a concrete one-object heap is unchanged by
`run_and_visualize`'s circuit handling. -/
theorem caller_circuits_unchanged_witness :
    ((ravHeap (fun c => c) true true [cregNoMeasure] 0).1).getD 0 default =
      [cregNoMeasure].getD 0 default :=
  caller_circuits_unchanged.1 (fun c => c) true true [cregNoMeasure] 0 0 default
    (by norm_num)

/-- Claim C6: `_display_circuit` and `_display_circuits_grid` never let a
drawing exception escape: whatever the fallible drawing primitives do, both
helpers return normally, and when the `mpl` drawing raises, the circuit is
instead rendered as plain text after the error message. -/
theorem drawing_errors_never_propagate :
    (∀ dm dl dt style title qc, ∃ evs,
      displayCircuitE dm dl dt style title qc = .ok evs) ∧
    (∀ dm dl dt title qc e, dm qc = .error e →
      displayCircuitE dm dl dt "mpl" title qc =
        .ok [RenderEvent.printDrawError e, RenderEvent.printTextDraw (dt qc)]) ∧
    (∀ dm dl dt style circuits labels, ∃ evs,
      displayCircuitsGridE dm dl dt style circuits labels = .ok evs) := by
  have hE : ∀ dm dl dt style title qc, ∃ evs,
      displayCircuitE dm dl dt style title qc = .ok evs := by
    intro dm dl dt style title qc
    unfold displayCircuitE
    cases hb : displayCircuitBody dm dl dt style title qc with
    | ok evs => exact ⟨evs, rfl⟩
    | error e => exact ⟨_, rfl⟩
  refine ⟨hE, ?_, ?_⟩
  · intro dm dl dt title qc e hdm
    have hbody : displayCircuitBody dm dl dt "mpl" title qc = .error e := by
      unfold displayCircuitBody
      rw [if_neg (by decide), if_neg (by decide), hdm]
    unfold displayCircuitE
    rw [hbody]
  · intro dm dl dt style circuits labels
    unfold displayCircuitsGridE
    by_cases hstyle : style = "mpl"
    · rw [if_pos hstyle]
      exact ⟨_, rfl⟩
    · rw [if_neg hstyle]
      have hfold : ∀ (pairs : List (Circuit × String)), ∃ evs,
          pairs.foldr
            (fun cl acc =>
              match displayCircuitE dm dl dt style (some cl.2) cl.1 with
              | .ok evs2 =>
                match acc with
                | .ok rest => .ok (evs2 ++ rest)
                | .error e2 => .error e2
              | .error e2 => .error e2)
            (Except.ok []) = .ok evs := by
        intro pairs
        induction pairs with
        | nil => exact ⟨[], rfl⟩
        | cons cl rest ih =>
          obtain ⟨revs, hrest⟩ := ih
          obtain ⟨evs, hevs⟩ := hE dm dl dt style (some cl.2) cl.1
          refine ⟨evs ++ revs, ?_⟩
          rw [List.foldr_cons, hrest, hevs]
      exact hfold (circuits.zip labels)

/-- Witness for claim C6: a failing `mpl` drawing primitive is caught and
degraded to the plain-text rendering of the circuit. -/
theorem drawing_errors_never_propagate_witness :
    displayCircuitE (fun _ => .error "draw failed") (fun _ => .ok ())
      (fun _ => "circuit text") "mpl" none default =
      .ok [RenderEvent.printDrawError "draw failed",
        RenderEvent.printTextDraw "circuit text"] :=
  drawing_errors_never_propagate.2.1 (fun _ => .error "draw failed")
    (fun _ => .ok ()) (fun _ => "circuit text") none default "draw failed" rfl
